import Mathlib

/-!
Shallow embedding of src/Tree.h (boosting decision trees): the TreeNode
hierarchy (LeafNode / PartitionNode), the JSON codec (fromJson / toJson),
and the ensemble predictors (predict / predict_vec).

Modelling choices:
- C++ `double` is modelled as ℚ (exact numeric semantics of the source's
  arithmetic, executable and decidable).
- `folly::dynamic` is modelled by the inductive `Dyn`; a key lookup
  `obj[key]` that would throw (missing key, non-object) is modelled by
  `getKey` returning `none`, and every fatal outcome of fromJson
  (uncaught folly exception or the glog CHECK abort) is modelled as
  `none` of the Option result.
- The template parameter T (the feature/threshold type) is modelled by a
  type parameter together with a `CType` dictionary carrying the C++
  conversions used by Tree.h: static_cast<T> from double and from
  int64_t, the implicit conversion T -> double, the comparison <=, and
  the folly encoding of a T value. Two instantiations are provided:
  `doubleTy` (T = double) and `intTy` (T = int).
- `boost::scoped_array<T>` feature vectors are modelled as `List T`;
  out-of-range access (undefined behaviour in the source) is modelled as
  `none`.
-/

namespace Boosting

/-- Model of folly::dynamic restricted to the shapes Tree.h manipulates:
null, 64-bit integers, doubles, strings and objects (keyed field lists). -/
inductive Dyn where
  | null : Dyn
  | int (i : Int) : Dyn
  | dbl (q : ℚ) : Dyn
  | str (s : String) : Dyn
  | obj (fields : List (String × Dyn)) : Dyn

/-- Field lookup in an object field list, first match wins. -/
def lookupField : List (String × Dyn) → String → Option Dyn
  | [], _ => none
  | (k, v) :: rest, key => if k = key then some v else lookupField rest key

/-- Model of obj[key] on a const folly::dynamic: some value when obj is an
object carrying the key, none when the access would throw (missing key,
or obj is not an object). -/
def getKey : Dyn → String → Option Dyn
  | Dyn.obj fields, key => lookupField fields key
  | _, _ => none

/-- Model of folly::dynamic::asDouble on the values Tree.h feeds it:
numeric values convert, anything else throws (none). (folly would also
parse a numeric string; no claim involves a string-typed vote or value,
and no tree serializes to one.) -/
def asDouble : Dyn → Option ℚ
  | Dyn.int i => some (i : ℚ)
  | Dyn.dbl q => some q
  | _ => none

/-- Model of folly::dynamic::asString().toStdString() on the values the
codec feeds it: a string converts to itself, non-strings throw (none).
(folly would also stringify a bare numeric; such a name never resolves in
a configuration consistent with a serialized tree.) -/
def asString : Dyn → Option String
  | Dyn.str s => some s
  | _ => none

/-- Model of folly::dynamic::isInt. -/
def Dyn.isInt : Dyn → Bool
  | Dyn.int _ => true
  | _ => false

/-- Model of folly::dynamic::asInt on values guarded by isInt. -/
def asInt : Dyn → Option Int
  | Dyn.int i => some i
  | _ => none

/-- The configuration collaborator (Config.h, external to this core):
name-to-index and index-to-name feature lookups. -/
structure Config where
  getFeatureIndex : String → Int
  getFeatureName : Int → String

/-- Dictionary of the C++ operations Tree.h uses on the template
parameter T: static_cast<T>(double), static_cast<T>(int64_t), the
implicit widening T -> double, operator<=, and how folly::dynamic stores
a T inserted into an object. -/
structure CType (T : Type) where
  ofDouble : ℚ → T
  ofInt : Int → T
  toDouble : T → ℚ
  le : T → T → Bool
  toDyn : T → Dyn

/-- Truncation toward zero: the semantics of C++ static_cast<int>(double)
on values in range. -/
def truncQ (q : ℚ) : Int :=
  q.num.tdiv (q.den : Int)

/-- The T = double instantiation: every conversion is the identity. -/
def doubleTy : CType ℚ where
  ofDouble := id
  ofInt := fun i => (i : ℚ)
  toDouble := id
  le := fun a b => decide (a ≤ b)
  toDyn := Dyn.dbl

/-- The T = int instantiation: static_cast<int>(double) truncates toward
zero. -/
def intTy : CType Int where
  ofDouble := truncQ
  ofInt := id
  toDouble := fun i => (i : ℚ)
  le := fun a b => decide (a ≤ b)
  toDyn := Dyn.int

/-- The TreeNode<T> hierarchy as a closed sum: LeafNode<T> holds its vote
(a double); PartitionNode<T> holds fid_, fv_, fvote_ and the two owned
children. -/
inductive TreeNode (T : Type) where
  | leaf (fvote : ℚ) : TreeNode T
  | part (fid : Int) (fv : T) (fvote : ℚ) (left right : TreeNode T) : TreeNode T
deriving DecidableEq, Repr

/-- Feature-vector access fvec[i]: the scoped_array read is undefined
behaviour out of range, modelled as none. -/
def vecGet {T : Type} (fvec : List T) (i : Int) : Option T :=
  if 0 ≤ i then fvec.get? i.toNat else none

/-- TreeNode::eval. LeafNode returns fvote_; PartitionNode reads
fvec[fid_] and recurses left when it is <= fv_, right otherwise. -/
def eval {T : Type} (CT : CType T) : TreeNode T → List T → Option ℚ
  | TreeNode.leaf v, _ => some v
  | TreeNode.part fid fv _ l r, fvec =>
    match vecGet fvec fid with
    | none => none
    | some x => if CT.le x fv then eval CT l fvec else eval CT r fvec

/-- TreeNode::scale: multiply fvote_ by w at every node, recursing into
both children of a PartitionNode. -/
def scale {T : Type} : TreeNode T → ℚ → TreeNode T
  | TreeNode.leaf v, w => TreeNode.leaf (v * w)
  | TreeNode.part fid fv fvote l r, w =>
    TreeNode.part fid fv (fvote * w) (scale l w) (scale r w)

/-- TreeNode::toJson. LeafNode emits index = -1 and vote; PartitionNode
emits index, value, left, right, vote and the feature name resolved from
fid_ via the configuration, in the source's insertion order. -/
def toJson {T : Type} (CT : CType T) : TreeNode T → Config → Dyn
  | TreeNode.leaf v, _ =>
    Dyn.obj [("index", Dyn.int (-1)), ("vote", Dyn.dbl v)]
  | TreeNode.part fid fv fvote l r, cfg =>
    Dyn.obj [("index", Dyn.int fid), ("value", CT.toDyn fv),
             ("left", toJson CT l cfg), ("right", toJson CT r cfg),
             ("vote", Dyn.dbl fvote), ("feature", Dyn.str (cfg.getFeatureName fid))]

/-- Parsing of obj["value"] in fromJson: if isInt then
static_cast<T>(asInt()) else static_cast<T>(asDouble()). -/
def readValue {T : Type} (CT : CType T) (vd : Dyn) : Option T :=
  if vd.isInt then (asInt vd).map CT.ofInt else (asDouble vd).map CT.ofDouble

theorem lookupField_sizeOf {fields : List (String × Dyn)} {key : String} {v : Dyn}
    (h : lookupField fields key = some v) : sizeOf v < 1 + sizeOf fields := by
  induction fields with
  | nil => simp [lookupField] at h
  | cons kv rest ih =>
    rw [lookupField] at h
    by_cases hk : kv.1 = key
    · simp [hk] at h
      subst h
      cases kv with
      | mk k w => simp; omega
    · simp [hk] at h
      have := ih h
      cases kv with
      | mk k w => simp; omega

theorem getKey_sizeOf {d : Dyn} {key : String} {v : Dyn}
    (h : getKey d key = some v) : sizeOf v < sizeOf d := by
  cases d with
  | obj fields =>
    rw [getKey] at h
    have := lookupField_sizeOf h
    simp
    omega
  | null => simp [getKey] at h
  | int i => simp [getKey] at h
  | dbl q => simp [getKey] at h
  | str s => simp [getKey] at h

/-- fromJson (Tree.h lines 153-181). The "feature" access is guarded by a
catch-all (absence marks a Leaf); obj["vote"].asDouble() is read
unguarded and cast through T back to double; a Split resolves the feature
name (CHECK_GE aborts on a negative index), parses "value" by its folly
type, and recursively deserializes "left" and "right". Every fatal path
is none. -/
def fromJson {T : Type} (CT : CType T) (obj : Dyn) (cfg : Config) :
    Option (TreeNode T) :=
  match (getKey obj "vote").bind asDouble with
  | none => none
  | some vq =>
    let vote := CT.toDouble (CT.ofDouble vq)
    match getKey obj "feature" with
    | none => some (TreeNode.leaf vote)
    | some fd =>
      match asString fd with
      | none => none
      | some featureName =>
        let index := cfg.getFeatureIndex featureName
        if index < 0 then none
        else
          match (getKey obj "value").bind (readValue CT) with
          | none => none
          | some value =>
            match hLeft : getKey obj "left" with
            | none => none
            | some ld =>
              match hRight : getKey obj "right" with
              | none => none
              | some rd =>
                match fromJson CT ld cfg, fromJson CT rd cfg with
                | some l, some r => some (TreeNode.part index value vote l r)
                | _, _ => none
termination_by sizeOf obj
decreasing_by
  · exact getKey_sizeOf hLeft
  · exact getKey_sizeOf hRight

/-- predict (Tree.h lines 183-192): fold f += m->eval(fvec) over the
models, starting from 0.0. -/
def predict {T : Type} (CT : CType T) (models : List (TreeNode T))
    (fvec : List T) : Option ℚ :=
  models.foldl (fun acc m => acc.bind (fun f => (eval CT m fvec).map (fun e => f + e)))
    (some 0)

/-- predict_vec (Tree.h lines 194-205): same fold, but after each tree
the running total is pushed onto the caller-supplied score vector (which
is never cleared). Returns the total together with the final score
vector. -/
def predict_vec {T : Type} (CT : CType T) (models : List (TreeNode T))
    (fvec : List T) (score : List ℚ) : Option (ℚ × List ℚ) :=
  models.foldl
    (fun acc m => acc.bind (fun p =>
      (eval CT m fvec).map (fun e => (p.1 + e, p.2 ++ [p.1 + e]))))
    (some (0, score))

/-- A configuration is consistent with a tree when every split's fid_ is
non-negative and survives the name round trip through the configuration
(getFeatureIndex of getFeatureName gives back fid_). -/
def consistentB {T : Type} (cfg : Config) : TreeNode T → Bool
  | TreeNode.leaf _ => true
  | TreeNode.part fid _ _ l r =>
    decide (0 ≤ fid) &&
    decide (cfg.getFeatureIndex (cfg.getFeatureName fid) = fid) &&
    consistentB cfg l && consistentB cfg r

/-- A tiny concrete configuration knowing one feature, used to
instantiate universally quantified results on concrete inputs. -/
def cfg0 : Config where
  getFeatureIndex := fun s => if s = "age" then 0 else -1
  getFeatureName := fun i => if i = 0 then "age" else "unknown"

/-- Running cumulative totals of a list of contributions, starting from
an accumulated value a. -/
def runningSums (a : ℚ) : List ℚ → List ℚ
  | [] => []
  | e :: es => (a + e) :: runningSums (a + e) es

theorem fromJson_vote_none {T : Type} {CT : CType T} {obj : Dyn} {cfg : Config}
    (hv : (getKey obj "vote").bind asDouble = none) :
    fromJson CT obj cfg = none := by
  rw [fromJson.eq_def, hv]

theorem fromJson_leaf_eq {T : Type} {CT : CType T} {obj : Dyn} {cfg : Config} {vq : ℚ}
    (hv : (getKey obj "vote").bind asDouble = some vq)
    (hf : getKey obj "feature" = none) :
    fromJson CT obj cfg = some (TreeNode.leaf (CT.toDouble (CT.ofDouble vq))) := by
  rw [fromJson.eq_def, hv]
  simp [hf]

theorem fromJson_feature_some {T : Type} {CT : CType T} {obj : Dyn} {cfg : Config} {fd : Dyn}
    (hf : getKey obj "feature" = some fd) :
    fromJson CT obj cfg = none ∨
      ∃ fid fv fvote l r, fromJson CT obj cfg = some (TreeNode.part fid fv fvote l r) := by
  rw [fromJson.eq_def]
  simp only [hf]
  repeat' split
  all_goals
    first
      | exact Or.inl rfl
      | exact Or.inr ⟨_, _, _, _, _, rfl⟩

theorem fromJson_name_neg {T : Type} {CT : CType T} {obj : Dyn} {cfg : Config}
    {fd : Dyn} {name : String}
    (hf : getKey obj "feature" = some fd) (hs : asString fd = some name)
    (hneg : cfg.getFeatureIndex name < 0) :
    fromJson CT obj cfg = none := by
  rw [fromJson.eq_def]
  simp only [hf, hs]
  repeat' split
  all_goals first | rfl | omega

theorem fromJson_left_missing {T : Type} {CT : CType T} {obj : Dyn} {cfg : Config} {fd : Dyn}
    (hf : getKey obj "feature" = some fd) (hl : getKey obj "left" = none) :
    fromJson CT obj cfg = none := by
  rw [fromJson.eq_def]
  simp only [hf, hl]
  repeat' split
  all_goals first | rfl | simp_all

theorem fromJson_right_missing {T : Type} {CT : CType T} {obj : Dyn} {cfg : Config} {fd : Dyn}
    (hf : getKey obj "feature" = some fd) (hr : getKey obj "right" = none) :
    fromJson CT obj cfg = none := by
  rw [fromJson.eq_def]
  simp only [hf, hr]
  repeat' split
  all_goals first | rfl | simp_all

theorem fromJson_left_child_none {T : Type} {CT : CType T} {obj : Dyn} {cfg : Config}
    {fd ld : Dyn}
    (hf : getKey obj "feature" = some fd) (hl : getKey obj "left" = some ld)
    (hchild : fromJson CT ld cfg = none) :
    fromJson CT obj cfg = none := by
  rw [fromJson.eq_def]
  simp only [hf, hl, hchild]
  repeat' split
  all_goals first | rfl | simp_all

theorem fromJson_right_child_none {T : Type} {CT : CType T} {obj : Dyn} {cfg : Config}
    {fd rd : Dyn}
    (hf : getKey obj "feature" = some fd) (hr : getKey obj "right" = some rd)
    (hchild : fromJson CT rd cfg = none) :
    fromJson CT obj cfg = none := by
  rw [fromJson.eq_def]
  simp only [hf, hr, hchild]
  repeat' split
  all_goals first | rfl | simp_all

theorem fromJson_split_success {T : Type} {CT : CType T} {obj : Dyn} {cfg : Config}
    {vq : ℚ} {fd ld rd : Dyn} {name : String} {value : T} {l r : TreeNode T}
    (hv : (getKey obj "vote").bind asDouble = some vq)
    (hf : getKey obj "feature" = some fd) (hs : asString fd = some name)
    (hge : ¬ cfg.getFeatureIndex name < 0)
    (hval : (getKey obj "value").bind (readValue CT) = some value)
    (hl : getKey obj "left" = some ld) (hr : getKey obj "right" = some rd)
    (hld : fromJson CT ld cfg = some l) (hrd : fromJson CT rd cfg = some r) :
    fromJson CT obj cfg =
      some (TreeNode.part (cfg.getFeatureIndex name) value
        (CT.toDouble (CT.ofDouble vq)) l r) := by
  rw [fromJson.eq_def]
  simp only [hv, hf, hs, hval, if_neg hge]
  repeat' split
  all_goals simp_all

theorem toJson_double_roundtrip (t : TreeNode ℚ) (cfg : Config)
    (h : consistentB cfg t = true) :
    fromJson doubleTy (toJson doubleTy t cfg) cfg = some t := by
  induction t with
  | leaf v =>
    rw [toJson]
    rw [fromJson_leaf_eq (by rfl) (by rfl)]
    rfl
  | part fid fv fvote l r ihl ihr =>
    rw [consistentB] at h
    simp only [Bool.and_eq_true, decide_eq_true_eq] at h
    obtain ⟨⟨⟨h0, hidx⟩, hcl⟩, hcr⟩ := h
    rw [toJson]
    rw [fromJson_split_success (by rfl) (by rfl) (by rfl) (by rw [hidx]; omega)
      (by rfl) (by rfl) (by rfl) (ihl hcl) (ihr hcr)]
    rw [hidx]
    rfl

theorem predict_foldl_step {T : Type} (CT : CType T) (fvec : List T)
    (models : List (TreeNode T)) (es : List ℚ)
    (h : models.mapM (fun m => eval CT m fvec) = some es) (a : ℚ) :
    models.foldl (fun acc m => acc.bind (fun f => (eval CT m fvec).map (fun e => f + e)))
      (some a) = some (a + es.sum) := by
  induction models generalizing es a with
  | nil =>
    simp only [List.mapM_nil, Option.pure_def, Option.some_inj] at h
    subst h
    simp
  | cons m rest ih =>
    rw [List.mapM_cons] at h
    rcases he : eval CT m fvec with _ | e
    · rw [he] at h
      simp at h
    · rw [he] at h
      simp only [Option.pure_def, Option.bind_eq_bind, Option.some_bind] at h
      rcases hr : rest.mapM (fun m => eval CT m fvec) with _ | es2
      · rw [hr] at h
        simp at h
      · rw [hr] at h
        simp only [Option.some_bind, Option.some_inj] at h
        subst h
        simp only [List.foldl_cons, Option.some_bind, he, Option.map_some']
        rw [ih es2 hr (a + e)]
        simp [add_assoc]

theorem predict_vec_foldl_step {T : Type} (CT : CType T) (fvec : List T)
    (models : List (TreeNode T)) (es : List ℚ)
    (h : models.mapM (fun m => eval CT m fvec) = some es) (a : ℚ) (s0 : List ℚ) :
    models.foldl
      (fun acc m => acc.bind (fun p =>
        (eval CT m fvec).map (fun e => (p.1 + e, p.2 ++ [p.1 + e]))))
      (some (a, s0)) = some (a + es.sum, s0 ++ runningSums a es) := by
  induction models generalizing es a s0 with
  | nil =>
    simp only [List.mapM_nil, Option.pure_def, Option.some_inj] at h
    subst h
    simp [runningSums]
  | cons m rest ih =>
    rw [List.mapM_cons] at h
    rcases he : eval CT m fvec with _ | e
    · rw [he] at h
      simp at h
    · rw [he] at h
      simp only [Option.pure_def, Option.bind_eq_bind, Option.some_bind] at h
      rcases hr : rest.mapM (fun m => eval CT m fvec) with _ | es2
      · rw [hr] at h
        simp at h
      · rw [hr] at h
        simp only [Option.some_bind, Option.some_inj] at h
        subst h
        simp only [List.foldl_cons, Option.some_bind, he, Option.map_some']
        rw [ih es2 hr (a + e) (s0 ++ [a + e])]
        simp [add_assoc, runningSums]

theorem runningSums_length (a : ℚ) (es : List ℚ) :
    (runningSums a es).length = es.length := by
  induction es generalizing a with
  | nil => rfl
  | cons e es ih => simp [runningSums, ih]

theorem runningSums_get (a : ℚ) (es : List ℚ) (i : ℕ) (hi : i < (runningSums a es).length) :
    (runningSums a es).get ⟨i, hi⟩ = a + (es.take (i + 1)).sum := by
  induction es generalizing a i with
  | nil => simp [runningSums] at hi
  | cons e es ih =>
    cases i with
    | zero => simp [runningSums]
    | succ j =>
      have hj : j < (runningSums (a + e) es).length := by
        have := hi
        simp [runningSums] at this ⊢
        omega
      have : (runningSums a (e :: es)).get ⟨j + 1, hi⟩ =
          (runningSums (a + e) es).get ⟨j, hj⟩ := rfl
      rw [this, ih]
      simp [add_assoc]

theorem runningSums_getLast (a : ℚ) (es : List ℚ) (hne : es ≠ []) :
    (runningSums a es).getLast? = some (a + es.sum) := by
  induction es generalizing a with
  | nil => exact absurd rfl hne
  | cons e es ih =>
    cases es with
    | nil => simp [runningSums]
    | cons e2 es2 =>
      have h2 : runningSums (a + e) (e2 :: es2) =
          (a + e + e2) :: runningSums (a + e + e2) es2 := rfl
      rw [runningSums, h2, List.getLast?_cons_cons, ← h2, ih (a + e) (by simp)]
      simp [add_assoc]

theorem mapM_some_length {α β : Type} (f : α → Option β) :
    ∀ (xs : List α) (ys : List β), xs.mapM f = some ys → ys.length = xs.length := by
  intro xs
  induction xs with
  | nil =>
    intro ys h
    simp only [List.mapM_nil, Option.pure_def, Option.some_inj] at h
    subst h
    rfl
  | cons x rest ih =>
    intro ys h
    rw [List.mapM_cons] at h
    rcases hx : f x with _ | b
    · rw [hx] at h
      simp at h
    · rw [hx] at h
      simp only [Option.pure_def, Option.bind_eq_bind, Option.some_bind] at h
      rcases hr : rest.mapM f with _ | bs
      · rw [hr] at h
        simp at h
      · rw [hr] at h
        simp only [Option.some_bind, Option.some_inj] at h
        subst h
        simp [ih bs hr]

theorem predict_vec_fold_none {T : Type} (CT : CType T) (fvec : List T)
    (models : List (TreeNode T)) :
    models.foldl
      (fun acc m => acc.bind (fun p =>
        (eval CT m fvec).map (fun e => (p.1 + e, p.2 ++ [p.1 + e]))))
      none = none := by
  induction models with
  | nil => rfl
  | cons m rest ih => simpa using ih

theorem predict_vec_fold_append {T : Type} (CT : CType T) (fvec : List T)
    (models : List (TreeNode T)) :
    ∀ (a : ℚ) (t s0 : List ℚ),
      models.foldl
        (fun acc m => acc.bind (fun p =>
          (eval CT m fvec).map (fun e => (p.1 + e, p.2 ++ [p.1 + e]))))
        (some (a, s0 ++ t)) =
      Option.map (fun p => (p.1, s0 ++ p.2))
        (models.foldl
          (fun acc m => acc.bind (fun p =>
            (eval CT m fvec).map (fun e => (p.1 + e, p.2 ++ [p.1 + e]))))
          (some (a, t))) := by
  induction models with
  | nil =>
    intro a t s0
    rfl
  | cons m rest ih =>
    intro a t s0
    simp only [List.foldl_cons, Option.some_bind]
    rcases he : eval CT m fvec with _ | e
    · simp only [Option.map_none']
      rw [predict_vec_fold_none]
      rfl
    · simp only [Option.map_some']
      rw [show (s0 ++ t) ++ [a + e] = s0 ++ (t ++ [a + e]) by simp]
      exact ih (a + e) (t ++ [a + e]) s0

/-- C1 (counterexample): the round-trip claim fails as stated on the
integer instantiation. The tree LeafNode<int>(2.5) is consistent with
cfg0, yet deserializing its serialization yields a Leaf whose vote is 2,
not 2.5, because fromJson casts the vote through T; the two trees
evaluate differently on the empty feature vector. -/
theorem C1_roundtrip_counterexample :
    consistentB cfg0 (TreeNode.leaf (5/2) : TreeNode Int) = true ∧
    fromJson intTy (toJson intTy (TreeNode.leaf (5/2)) cfg0) cfg0 =
      some (TreeNode.leaf 2) ∧
    eval intTy (TreeNode.leaf 2) [] ≠ eval intTy (TreeNode.leaf (5/2)) [] := by
  refine ⟨rfl, ?_, ?_⟩
  · rw [show toJson intTy (TreeNode.leaf (5/2)) cfg0 =
      Dyn.obj [("index", Dyn.int (-1)), ("vote", Dyn.dbl (5/2))] from rfl]
    rw [fromJson_leaf_eq (by rfl) (by rfl)]
    simp only [intTy, truncQ]
    rw [show ((5:ℚ)/2).num = 5 by norm_num, show (((5:ℚ)/2).den : Int) = 2 by norm_num,
      show Int.tdiv 5 2 = 2 from rfl]
    norm_num
  · simp only [eval, Option.some_inj]
    norm_num

/-- C1 (amended): for any tree of the floating-point instantiation
(T = double) and any configuration consistent with it, deserializing the
serialization returns exactly the original tree, hence a tree with the
same vote at every node that evaluates identically on every feature
vector. (On integer instantiations the vote of every node is additionally
truncated toward zero by the cast through T in fromJson.) -/
theorem C1_roundtrip_double (t : TreeNode ℚ) (cfg : Config)
    (h : consistentB cfg t = true) :
    fromJson doubleTy (toJson doubleTy t cfg) cfg = some t :=
  toJson_double_roundtrip t cfg h

/-- Witness for C1: a two-level concrete tree survives the round trip
under cfg0. -/
theorem C1_roundtrip_double_witness :
    consistentB cfg0 (TreeNode.part 0 (5:ℚ) 1 (TreeNode.leaf 2) (TreeNode.leaf 3)) = true ∧
    fromJson doubleTy
      (toJson doubleTy (TreeNode.part 0 (5:ℚ) 1 (TreeNode.leaf 2) (TreeNode.leaf 3)) cfg0)
      cfg0 =
      some (TreeNode.part 0 (5:ℚ) 1 (TreeNode.leaf 2) (TreeNode.leaf 3)) :=
  ⟨rfl, C1_roundtrip_double _ cfg0 rfl⟩

/-- C2: on a Split node whose feature index is covered by the vector,
eval compares fvec[fid] <= fv and recurses into the left child on true
(boundary included) and the right child on false; on a Leaf, eval returns
the vote unconditionally. -/
theorem C2_eval_semantics :
    (∀ (T : Type) (CT : CType T) (v : ℚ) (fvec : List T),
      eval CT (TreeNode.leaf v) fvec = some v) ∧
    (∀ (T : Type) (CT : CType T) (fid : Int) (fv : T) (fvote : ℚ)
      (l r : TreeNode T) (fvec : List T), 0 ≤ fid →
      ∀ hlen : fid.toNat < fvec.length,
      eval CT (TreeNode.part fid fv fvote l r) fvec =
        if CT.le (fvec.get ⟨fid.toNat, hlen⟩) fv then eval CT l fvec
        else eval CT r fvec) := by
  constructor
  · intro T CT v fvec
    rfl
  · intro T CT fid fv fvote l r fvec h0 hlen
    rw [eval]
    rw [show vecGet fvec fid = some (fvec.get ⟨fid.toNat, hlen⟩) by
      rw [vecGet, if_pos h0, List.get?_eq_get hlen]]

/-- Witness for C2, at the spec's boundary example: the split on feature
0 with threshold 5 routes the vector [5] to the left child (<= includes
equality), giving vote 1. -/
theorem C2_eval_semantics_witness :
    eval doubleTy (TreeNode.part 0 5 0 (TreeNode.leaf 1) (TreeNode.leaf 2))
      [(5:ℚ)] = some 1 := by
  have h := C2_eval_semantics.2 ℚ doubleTy 0 5 0 (TreeNode.leaf 1) (TreeNode.leaf 2)
    [(5:ℚ)] (by decide) (by decide)
  simpa [doubleTy, eval] using h

/-- C3 (counterexample): the claim fails on the integer instantiation.
Deserializing the document with vote 2.5 under T = int yields a Leaf
whose vote is 2 (the value was converted through T), not 2.5. -/
theorem C3_vote_counterexample :
    fromJson intTy (Dyn.obj [("vote", Dyn.dbl (5/2))]) cfg0 =
      some (TreeNode.leaf 2) ∧ (2 : ℚ) ≠ 5/2 := by
  constructor
  · rw [fromJson_leaf_eq (by rfl) (by rfl)]
    simp only [intTy, truncQ]
    rw [show ((5:ℚ)/2).num = 5 by norm_num, show (((5:ℚ)/2).den : Int) = 2 by norm_num,
      show Int.tdiv 5 2 = 2 from rfl]
    norm_num
  · norm_num

/-- C3 (amended): for a document lacking "feature" whose "vote" reads as
the floating-point value q, fromJson constructs a Leaf whose vote is q
converted through the feature type T: exactly q for the floating-point
instantiation, q truncated toward zero for the integer instantiation. -/
theorem C3_vote_conversion :
    (∀ (obj : Dyn) (cfg : Config) (q : ℚ),
      getKey obj "feature" = none →
      (getKey obj "vote").bind asDouble = some q →
      fromJson doubleTy obj cfg = some (TreeNode.leaf q)) ∧
    (∀ (obj : Dyn) (cfg : Config) (q : ℚ),
      getKey obj "feature" = none →
      (getKey obj "vote").bind asDouble = some q →
      fromJson intTy obj cfg = some (TreeNode.leaf (truncQ q : ℚ))) := by
  constructor
  · intro obj cfg q hf hq
    exact fromJson_leaf_eq hq hf
  · intro obj cfg q hf hq
    exact fromJson_leaf_eq hq hf

/-- Witness for C3: the spec's leaf document, vote 2.5, deserializes
under T = double to a Leaf with vote exactly 5/2. -/
theorem C3_vote_conversion_witness :
    fromJson doubleTy (Dyn.obj [("vote", Dyn.dbl (5/2))]) cfg0 =
      some (TreeNode.leaf (5/2)) :=
  C3_vote_conversion.1 (Dyn.obj [("vote", Dyn.dbl (5/2))]) cfg0 (5/2) rfl rfl

/-- C4 (counterexample): a document lacking "feature" does not always
deserialize to a Leaf: when its "vote" is also absent, fromJson fails
(obj["vote"] throws, uncaught) instead of producing a Leaf. -/
theorem C4_leaf_counterexample :
    fromJson doubleTy (Dyn.obj [("index", Dyn.int (-1))]) cfg0 = none :=
  fromJson_vote_none rfl

/-- C4 (amended): deserialization produces a Leaf if and only if the
document has no "feature" field and its "vote" field reads as a number;
in particular the presence of "feature" (whatever its value) never
produces a Leaf. -/
theorem C4_leaf_iff (T : Type) (CT : CType T) (obj : Dyn) (cfg : Config) :
    (∃ v, fromJson CT obj cfg = some (TreeNode.leaf v)) ↔
      (getKey obj "feature" = none ∧
        ∃ q, (getKey obj "vote").bind asDouble = some q) := by
  constructor
  · rintro ⟨v, hv⟩
    cases hf : getKey obj "feature" with
    | none =>
      cases hq : (getKey obj "vote").bind asDouble with
      | none =>
        rw [fromJson_vote_none hq] at hv
        cases hv
      | some q => exact ⟨rfl, q, rfl⟩
    | some fd =>
      rcases fromJson_feature_some hf with hnone | ⟨fid, fv2, fvote, l, r, hpart⟩
      · rw [hnone] at hv
        cases hv
      · rw [hpart] at hv
        simp at hv
  · rintro ⟨hf, q, hq⟩
    exact ⟨CT.toDouble (CT.ofDouble q), fromJson_leaf_eq hq hf⟩

/-- C5: a Split document whose feature name resolves to a negative index
in the configuration fails deserialization (the CHECK_GE aborts): no tree
is returned. -/
theorem C5_unresolvable_feature (T : Type) (CT : CType T) (obj : Dyn)
    (cfg : Config) (fd : Dyn) (s : String)
    (hf : getKey obj "feature" = some fd) (hs : asString fd = some s)
    (hneg : cfg.getFeatureIndex s < 0) :
    fromJson CT obj cfg = none :=
  fromJson_name_neg hf hs hneg

/-- Witness for C5: a fully-formed Split document whose feature name
"height" is unknown to cfg0 deserializes to an error. -/
theorem C5_unresolvable_feature_witness :
    fromJson doubleTy
      (Dyn.obj [("feature", Dyn.str "height"), ("value", Dyn.int 3),
        ("vote", Dyn.dbl 1), ("left", Dyn.obj [("vote", Dyn.dbl 0)]),
        ("right", Dyn.obj [("vote", Dyn.dbl 1)])]) cfg0 = none :=
  C5_unresolvable_feature ℚ doubleTy _ cfg0 (Dyn.str "height") "height"
    rfl rfl (by decide)

/-- C6: a Split document (one carrying "feature") missing its "left" or
its "right" child fails deserialization, and a failure of a child
deserialization propagates: the top-level call returns an error, never a
partial tree. -/
theorem C6_missing_child :
    (∀ (T : Type) (CT : CType T) (obj : Dyn) (cfg : Config) (fd : Dyn),
      getKey obj "feature" = some fd → getKey obj "left" = none →
      fromJson CT obj cfg = none) ∧
    (∀ (T : Type) (CT : CType T) (obj : Dyn) (cfg : Config) (fd : Dyn),
      getKey obj "feature" = some fd → getKey obj "right" = none →
      fromJson CT obj cfg = none) ∧
    (∀ (T : Type) (CT : CType T) (obj : Dyn) (cfg : Config) (fd ld : Dyn),
      getKey obj "feature" = some fd → getKey obj "left" = some ld →
      fromJson CT ld cfg = none → fromJson CT obj cfg = none) ∧
    (∀ (T : Type) (CT : CType T) (obj : Dyn) (cfg : Config) (fd rd : Dyn),
      getKey obj "feature" = some fd → getKey obj "right" = some rd →
      fromJson CT rd cfg = none → fromJson CT obj cfg = none) :=
  ⟨fun _ _ _ _ _ hf hl => fromJson_left_missing hf hl,
   fun _ _ _ _ _ hf hr => fromJson_right_missing hf hr,
   fun _ _ _ _ _ _ hf hl hc => fromJson_left_child_none hf hl hc,
   fun _ _ _ _ _ _ hf hr hc => fromJson_right_child_none hf hr hc⟩

/-- Witness for C6: a Split document whose left child is itself a Split
missing its own "left" field fails at the top level (the child's error
propagates through the recursive call). -/
theorem C6_missing_child_witness :
    fromJson doubleTy
      (Dyn.obj [("feature", Dyn.str "age"), ("value", Dyn.int 3),
        ("vote", Dyn.dbl 1),
        ("left", Dyn.obj [("feature", Dyn.str "age"), ("value", Dyn.int 4),
          ("vote", Dyn.dbl 2), ("right", Dyn.obj [("vote", Dyn.dbl 0)])]),
        ("right", Dyn.obj [("vote", Dyn.dbl 1)])]) cfg0 = none :=
  C6_missing_child.2.2.1 ℚ doubleTy _ cfg0 (Dyn.str "age")
    (Dyn.obj [("feature", Dyn.str "age"), ("value", Dyn.int 4),
      ("vote", Dyn.dbl 2), ("right", Dyn.obj [("vote", Dyn.dbl 0)])])
    rfl rfl
    (C6_missing_child.1 ℚ doubleTy _ cfg0 (Dyn.str "age") rfl rfl)

/-- C7: scaling by w1 and then by w2 produces exactly the tree scaled
once by w1*w2 - in particular the same vote at every Leaf and Split. -/
theorem C7_scale_compose (T : Type) (t : TreeNode T) (w1 w2 : ℚ) :
    scale (scale t w1) w2 = scale t (w1 * w2) := by
  induction t with
  | leaf v => simp [scale, mul_assoc]
  | part fid fv fvote l r ihl ihr => simp [scale, mul_assoc, ihl, ihr]

/-- C8: predict of an empty ensemble is 0, and whenever every tree
evaluates (the vector covers every referenced index), predict is the sum
of the per-tree evaluations. -/
theorem C8_predict_additive :
    (∀ (T : Type) (CT : CType T) (fvec : List T),
      predict CT [] fvec = some 0) ∧
    (∀ (T : Type) (CT : CType T) (models : List (TreeNode T)) (fvec : List T)
      (es : List ℚ), models.mapM (fun m => eval CT m fvec) = some es →
      predict CT models fvec = some es.sum) := by
  constructor
  · intro T CT fvec
    rfl
  · intro T CT models fvec es h
    rw [predict, predict_foldl_step CT fvec models es h 0, zero_add]

/-- Witness for C8: the two-leaf ensemble sums to 3 on the empty vector. -/
theorem C8_predict_additive_witness :
    predict doubleTy [TreeNode.leaf 1, TreeNode.leaf 2] ([] : List ℚ) = some 3 := by
  have h := C8_predict_additive.2 ℚ doubleTy [TreeNode.leaf 1, TreeNode.leaf 2]
    [] [1, 2] rfl
  simp only [List.sum_cons, List.sum_nil] at h
  norm_num at h
  exact h

/-- C9: on a nonempty ensemble whose trees all evaluate, predict_vec
started from an empty score vector produces the running cumulative
totals: the i-th entry is the sum of the first i+1 contributions, the
last entry equals the returned total, and that total equals predict. -/
theorem C9_trace (T : Type) (CT : CType T) (models : List (TreeNode T))
    (fvec : List T) (es : List ℚ) (hne : models ≠ [])
    (h : models.mapM (fun m => eval CT m fvec) = some es) :
    predict_vec CT models fvec [] = some (es.sum, runningSums 0 es) ∧
    (runningSums 0 es).length = models.length ∧
    (∀ (i : ℕ) (hi : i < (runningSums 0 es).length),
      (runningSums 0 es).get ⟨i, hi⟩ = (es.take (i + 1)).sum) ∧
    (runningSums 0 es).getLast? = some es.sum ∧
    predict CT models fvec = some es.sum := by
  have hlen : es.length = models.length := mapM_some_length _ models es h
  have hesne : es ≠ [] := by
    intro hx
    apply hne
    subst hx
    cases models with
    | nil => rfl
    | cons m rest => simp at hlen
  refine ⟨?_, ?_, ?_, ?_, ?_⟩
  · rw [predict_vec, predict_vec_foldl_step CT fvec models es h 0 [], zero_add,
      List.nil_append]
  · rw [runningSums_length, hlen]
  · intro i hi
    rw [runningSums_get, zero_add]
  · rw [runningSums_getLast 0 es hesne, zero_add]
  · rw [predict, predict_foldl_step CT fvec models es h 0, zero_add]

/-- Witness for C9: on the two-leaf ensemble the trace is the partial
totals 1 then 3, ending in the returned total 3, which predict agrees
with. -/
theorem C9_trace_witness :
    predict_vec doubleTy [TreeNode.leaf 1, TreeNode.leaf 2] ([] : List ℚ) [] =
      some (3, [1, 3]) ∧
    predict doubleTy [TreeNode.leaf 1, TreeNode.leaf 2] ([] : List ℚ) = some 3 := by
  have h := C9_trace ℚ doubleTy [TreeNode.leaf 1, TreeNode.leaf 2] [] [1, 2]
    (by simp) rfl
  constructor
  · have h1 := h.1
    rw [show ([(1:ℚ), 2]).sum = 3 by norm_num] at h1
    rw [show runningSums 0 [(1:ℚ), 2] = [1, 3] by
      rw [runningSums, runningSums, runningSums]
      norm_num] at h1
    exact h1
  · have h5 := h.2.2.2.2
    rw [show ([(1:ℚ), 2]).sum = 3 by norm_num] at h5
    exact h5

/-- C10: predict_vec appends to the caller's score vector without
clearing it: with initial contents s0 the result is s0 followed by the
partial sums computed from an empty start, and the returned total does
not depend on s0. -/
theorem C10_score_append (T : Type) (CT : CType T) (models : List (TreeNode T))
    (fvec : List T) (s0 : List ℚ) :
    predict_vec CT models fvec s0 =
      Option.map (fun p => (p.1, s0 ++ p.2)) (predict_vec CT models fvec []) := by
  rw [predict_vec, predict_vec]
  have h := predict_vec_fold_append CT fvec models 0 [] s0
  rw [List.append_nil] at h
  exact h

end Boosting
